import Mathlib

/-!
Shallow embedding of the text-to-speech pipeline in
`src/functions/textToSpeech.js` (chunking, word-boundary splitting,
rate-limited batch scheduling, HTTP handler), together with theorems
settling the specification claims about it.

JavaScript strings are modelled as `List Char`.  JavaScript `trim`
removes the standard ASCII whitespace characters; the exotic Unicode
space characters that JS `trim` also strips are irrelevant to the
properties at stake and are omitted from the whitespace predicate.
-/

namespace TTS

/-- JS string. -/
abbrev Str := List Char

/-- Audio byte buffer (Node `Buffer`), as a list of bytes. -/
abbrev ByteBuf := List Nat

/-- ASCII whitespace, as stripped by JavaScript `String.prototype.trim`. -/
def isWS (c : Char) : Bool :=
  c = ' ' || c = '\t' || c = '\n' || c = '\r' || c = '\x0b' || c = '\x0c'

/-- Remove trailing whitespace (the right half of JS `trim`). -/
def trimRight : Str → Str
  | [] => []
  | c :: rest =>
    let r := trimRight rest
    if r = [] && isWS c then [] else c :: r

/-- JS `String.prototype.trim`: strip leading and trailing whitespace. -/
def trim (l : Str) : Str := trimRight (l.dropWhile isWS)

/-- One global pass of JS `replace(/\r\n/g, '\n')`: left-to-right,
non-overlapping replacement of CRLF by LF. -/
def replaceCRLF : Str → Str
  | [] => []
  | '\r' :: '\n' :: rest => '\n' :: replaceCRLF rest
  | c :: rest => c :: replaceCRLF rest

/-- JS `replace(/\r/g, '\n')`. -/
def replaceCR (l : Str) : Str := l.map (fun c => if c = '\r' then '\n' else c)

/-- Line-ending normalization of `intelligentTextChunking` (textToSpeech.js
line 101): `text.replace(/\r\n/g, '\n').replace(/\r/g, '\n').trim()`. -/
def normalizeText (l : Str) : Str := trim (replaceCR (replaceCRLF l))

/-- JS `remainingText.lastIndexOf(' ', fromIdx)`: the largest index
`i ≤ fromIdx` holding a space character, if any (searching downward from
`fromIdx`, positions past the end of the string never match). -/
def lastIndexOfSpace (l : Str) : Nat → Option Nat
  | 0 => if l.get? 0 = some ' ' then some 0 else none
  | i + 1 => if l.get? (i + 1) = some ' ' then some (i + 1) else lastIndexOfSpace l i

/-- The split position chosen by one JS loop iteration of the word
splitter (textToSpeech.js lines 174–179): the last space within the
length limit, or a hard cut at `maxLength` when no space is found. -/
def splitPosOf (l : Str) (maxLength : Nat) : Nat :=
  match lastIndexOfSpace l maxLength with
  | some p => p
  | none => maxLength

/-- The loop of `splitLongTextAtWordBoundaries` (textToSpeech.js lines
168–191), with explicit fuel: each round, while the remaining text is
longer than `maxLength`, cut at the last space within the limit (hard cut
at `maxLength` when no space exists), emit the trimmed left part and
continue on the trimmed right part.  `none` models fuel exhaustion, i.e.
non-termination of the JS `while` loop. -/
def splitLongGo (maxLength : Nat) : Nat → Str → Option (List Str)
  | 0, _ => none
  | fuel + 1, remaining =>
    if remaining.length ≤ maxLength then
      some (if remaining.length > 0 then [remaining] else [])
    else
      match splitLongGo maxLength fuel (trim (remaining.drop (splitPosOf remaining maxLength))) with
      | some rest => some (trim (remaining.take (splitPosOf remaining maxLength)) :: rest)
      | none => none

/-- Function `splitLongTextAtWordBoundaries(text, maxLength)` (textToSpeech.js
lines 168–191).  Fuel `text.length + 1` bounds the JS loop: each
iteration shortens the remaining text whenever `maxLength ≥ 1` (proved
below), so `none` arises only where the JS loop would not terminate. -/
def splitLongTextAtWordBoundaries (text : Str) (maxLength : Nat) : Option (List Str) :=
  splitLongGo maxLength (text.length + 1) text

/-- Function `extractSentencesWithNLP` (textToSpeech.js lines 57–74), parametric in
the wink-nlp sentence segmenter `segment` (an external library, modelled
as an oracle): empty input yields no sentences, and sentences whose trim
is empty are filtered out. -/
def extractSentencesWithNLP (segment : Str → List Str) (plainText : Str) : List Str :=
  if plainText.length = 0 then []
  else (segment plainText).filter (fun s => 0 < (trim s).length)

/-- The sentence-grouping loop of `intelligentTextChunking` (textToSpeech.js
lines 125–153), carrying the running buffer `currentChunk`.  JS string
truthiness (`if (currentChunk)`) is non-emptiness.  `none` propagates
possible non-termination of the word-boundary fallback. -/
def chunkLoop (maxLength : Nat) : List Str → Str → Option (List Str)
  | [], currentChunk =>
    some (if (trim currentChunk).length = 0 then [] else [trim currentChunk])
  | sentence :: rest, currentChunk =>
    let testChunk := if currentChunk.length = 0 then sentence else currentChunk ++ ' ' :: sentence
    if maxLength < testChunk.length then
      if currentChunk.length = 0 then
        match splitLongTextAtWordBoundaries sentence maxLength with
        | some sentenceChunks =>
          match chunkLoop maxLength rest [] with
          | some tail => some (sentenceChunks ++ tail)
          | none => none
        | none => none
      else
        match chunkLoop maxLength rest sentence with
        | some tail => some (trim currentChunk :: tail)
        | none => none
    else chunkLoop maxLength rest testChunk

/-- Function `intelligentTextChunking(text, maxLength)` (textToSpeech.js lines
93–156), parametric in the sentence segmenter.  JS `!text` is truth-y
emptiness of the string.  The final `filter(chunk => chunk.length > 0)`
is line 155. -/
def intelligentTextChunking (segment : Str → List Str) (text : Str)
    (maxLength : Nat) : Option (List Str) :=
  if text.length = 0 then some []
  else
    let normalizedText := normalizeText text
    if normalizedText.length ≤ maxLength then some [normalizedText]
    else
      let sentences := extractSentencesWithNLP segment normalizedText
      if sentences.length = 0 then some [normalizedText]
      else if sentences.length = 1 ∧ maxLength < (sentences.headD []).length then
        splitLongTextAtWordBoundaries (sentences.headD []) maxLength
      else
        match chunkLoop maxLength sentences [] with
        | some chunks => some (chunks.filter (fun c => 0 < c.length))
        | none => none

/-! ### Basic lemmas about the string operations -/

theorem trimRight_length_le (l : Str) : (trimRight l).length ≤ l.length := by
  induction l with
  | nil => simp [trimRight]
  | cons c rest ih =>
    simp only [trimRight]
    split
    · simp
    · simpa using ih

theorem length_dropWhile_le (p : Char → Bool) (l : Str) :
    (l.dropWhile p).length ≤ l.length :=
  List.Sublist.length_le (List.dropWhile_sublist p)

theorem trim_length_le (l : Str) : (trim l).length ≤ l.length :=
  le_trans (trimRight_length_le _) (length_dropWhile_le isWS l)

theorem trim_cons_ws_length_lt (c : Char) (rest : Str) (h : isWS c) :
    (trim (c :: rest)).length < (c :: rest).length := by
  have heq : trim (c :: rest) = trimRight (rest.dropWhile isWS) := by
    simp [trim, List.dropWhile_cons, h]
  rw [heq]
  have h1 := trimRight_length_le (rest.dropWhile isWS)
  have h2 : (rest.dropWhile isWS).length ≤ rest.length := length_dropWhile_le isWS rest
  simp only [List.length_cons]
  omega

theorem lastIndexOfSpace_spec (l : Str) :
    ∀ i p, lastIndexOfSpace l i = some p → p ≤ i ∧ l.get? p = some ' ' := by
  intro i
  induction i with
  | zero =>
    intro p hp
    simp only [lastIndexOfSpace] at hp
    split at hp
    · rename_i h
      obtain rfl : (0 : Nat) = p := by simpa using hp
      exact ⟨le_refl _, h⟩
    · simp at hp
  | succ j ih =>
    intro p hp
    simp only [lastIndexOfSpace] at hp
    split at hp
    · rename_i h
      obtain rfl : j + 1 = p := by simpa using hp
      exact ⟨le_refl _, h⟩
    · obtain ⟨h1, h2⟩ := ih p hp
      exact ⟨by omega, h2⟩

theorem splitPosOf_le (l : Str) (maxLength : Nat) : splitPosOf l maxLength ≤ maxLength := by
  unfold splitPosOf
  cases hsp : lastIndexOfSpace l maxLength with
  | some p => exact (lastIndexOfSpace_spec l maxLength p hsp).1
  | none => exact le_refl _

/-- One JS loop iteration strictly shortens the remaining text whenever
`maxLength ≥ 1` and the remaining text is still over the limit. -/
theorem splitLong_step_lt (maxLength : Nat) (hm : 1 ≤ maxLength) (l : Str)
    (hlong : maxLength < l.length) :
    (trim (l.drop (splitPosOf l maxLength))).length < l.length := by
  cases hsp : lastIndexOfSpace l maxLength with
  | some p =>
    have hpos : splitPosOf l maxLength = p := by simp [splitPosOf, hsp]
    rw [hpos]
    obtain ⟨hple, hget⟩ := lastIndexOfSpace_spec l maxLength p hsp
    cases p with
    | zero =>
      have hl : ∃ rest, l = ' ' :: rest := by
        cases l with
        | nil => simp at hget
        | cons c rest =>
          simp only [List.get?] at hget
          exact ⟨rest, by simp_all⟩
      obtain ⟨rest, hl⟩ := hl
      simpa [hl] using trim_cons_ws_length_lt ' ' rest (by simp [isWS])
    | succ q =>
      have h1 := trim_length_le (l.drop (q + 1))
      have h2 : (l.drop (q + 1)).length = l.length - (q + 1) := List.length_drop _ _
      omega
  | none =>
    have hpos : splitPosOf l maxLength = maxLength := by simp [splitPosOf, hsp]
    rw [hpos]
    have h1 := trim_length_le (l.drop maxLength)
    have h2 : (l.drop maxLength).length = l.length - maxLength := List.length_drop _ _
    omega

/-- Fuel sufficiency: with `maxLength ≥ 1`, fuel exceeding the remaining
length never runs out, i.e. the JS `while` loop terminates. -/
theorem splitLongGo_isSome (maxLength : Nat) (hm : 1 ≤ maxLength) :
    ∀ fuel l, l.length < fuel → (splitLongGo maxLength fuel l).isSome := by
  intro fuel
  induction fuel with
  | zero => intro l h; omega
  | succ f ih =>
    intro l hl
    simp only [splitLongGo]
    split
    · simp
    · rename_i hlong
      push_neg at hlong
      have hstep := splitLong_step_lt maxLength hm l hlong
      have hrec := ih (trim (l.drop (splitPosOf l maxLength))) (by omega)
      split
      · simp
      · rename_i heq
        rw [heq] at hrec
        simp at hrec

/-- The word-boundary splitter terminates for every positive limit. -/
theorem splitLongTextAtWordBoundaries_isSome (text : Str) (maxLength : Nat)
    (hm : 1 ≤ maxLength) : (splitLongTextAtWordBoundaries text maxLength).isSome :=
  splitLongGo_isSome maxLength hm _ text (by omega)

/-- Every fragment the splitter emits has length ≤ `maxLength`. -/
theorem splitLongGo_length_le (maxLength : Nat) :
    ∀ fuel l res, splitLongGo maxLength fuel l = some res →
      ∀ f ∈ res, f.length ≤ maxLength := by
  intro fuel
  induction fuel with
  | zero => intro l res h; simp [splitLongGo] at h
  | succ fu ih =>
    intro l res h f hf
    simp only [splitLongGo] at h
    split at h
    · rename_i hshort
      split at h
      · obtain rfl : [l] = res := by simpa using h
        obtain rfl : f = l := List.mem_singleton.mp hf
        exact hshort
      · obtain rfl : ([] : List Str) = res := by simp_all
        simp at hf
    · rename_i hlong
      split at h
      · rename_i rest heq
        obtain rfl : trim (l.take (splitPosOf l maxLength)) :: rest = res := by
          simpa using h
        rcases List.mem_cons.mp hf with rfl | hmem
        · have h1 := trim_length_le (l.take (splitPosOf l maxLength))
          have h2 : (l.take (splitPosOf l maxLength)).length ≤ splitPosOf l maxLength := by
            simp [List.length_take]
          have h3 := splitPosOf_le l maxLength
          omega
        · exact ih _ rest heq f hmem
      · simp at h

/-- The sentence-grouping loop always terminates for a positive limit
(the only fuel it consumes is inside the word-boundary fallback). -/
theorem chunkLoop_isSome (maxLength : Nat) (hm : 1 ≤ maxLength) :
    ∀ sentences currentChunk, (chunkLoop maxLength sentences currentChunk).isSome := by
  intro sentences
  induction sentences with
  | nil => intro currentChunk; simp [chunkLoop]
  | cons s rest ih =>
    intro currentChunk
    by_cases hcc : currentChunk.length = 0
    · simp only [chunkLoop, if_pos hcc]
      split
      · cases hs : splitLongTextAtWordBoundaries s maxLength with
        | some sc =>
          cases h : chunkLoop maxLength rest [] with
          | some tail => simp
          | none => have hr := ih []; rw [h] at hr; simp at hr
        | none =>
          have hr := splitLongTextAtWordBoundaries_isSome s maxLength hm
          rw [hs] at hr; simp at hr
      · exact ih _
    · simp only [chunkLoop, if_neg hcc]
      split
      · cases h : chunkLoop maxLength rest s with
        | some tail => simp
        | none => have hr := ih s; rw [h] at hr; simp at hr
      · exact ih _

/-- Chunking always terminates for a positive limit. -/
theorem intelligentTextChunking_isSome (segment : Str → List Str) (text : Str)
    (maxLength : Nat) (hm : 1 ≤ maxLength) :
    (intelligentTextChunking segment text maxLength).isSome := by
  simp only [intelligentTextChunking]
  split
  · simp
  · split
    · simp
    · split
      · simp
      · split
        · exact splitLongTextAtWordBoundaries_isSome _ _ hm
        · cases h : chunkLoop maxLength (extractSentencesWithNLP segment (normalizeText text)) [] with
          | some chunks => simp [h]
          | none =>
            have hr := chunkLoop_isSome maxLength hm
              (extractSentencesWithNLP segment (normalizeText text)) []
            rw [h] at hr; simp at hr

/-! ### Claim C10 — short texts come back as one normalized chunk -/

/-- C10 (counterexample to the claim as stated): the empty text has
normalized length `0 ≤ 4900`, yet `intelligentTextChunking` returns zero
chunks (`!text` is true for the empty JS string, textToSpeech.js line 95),
not one chunk equal to the normalized input. -/
theorem chunking_empty_text_zero_chunks :
    (normalizeText ([] : Str)).length ≤ 4900 ∧
    intelligentTextChunking (fun _ => []) ([] : Str) 4900 = some [] ∧
    intelligentTextChunking (fun _ => []) ([] : Str) 4900 ≠ some [normalizeText []] := by
  decide

/-- C10 (amended: non-empty texts): for every non-empty text whose
normalized length is ≤ `maxLength`, the chunk assembler returns exactly
one chunk, equal to the line-ending-normalized and trimmed input
(textToSpeech.js lines 101–106). -/
theorem chunking_short_text_single_chunk (segment : Str → List Str) (text : Str)
    (maxLength : Nat) (hne : text.length ≠ 0)
    (hlen : (normalizeText text).length ≤ maxLength) :
    intelligentTextChunking segment text maxLength = some [normalizeText text] := by
  simp only [intelligentTextChunking, if_neg hne, if_pos hlen]

/-- Witness for `chunking_short_text_single_chunk` at `text = "hi "`. -/
theorem chunking_short_text_single_chunk_witness :
    intelligentTextChunking (fun _ => []) "hi ".toList 4900 = some [['h', 'i']] := by
  have h := chunking_short_text_single_chunk (fun _ => []) "hi ".toList 4900
    (by decide) (by decide)
  rw [h]
  decide

/-! ### Claim C8 — segmentation yielding zero sentences -/

/-- C8 (counterexample to the claim as stated): with a segmenter yielding
zero sentences on the (non-empty, oversized) normalized text `"abc def"`
and `maxLength = 5`, the code returns the whole text as one chunk of
length `7 > 5` — the word-boundary fallback is NOT applied
(textToSpeech.js lines 113–115 return `[normalizedText]` directly). -/
theorem chunking_zero_sentences_no_fallback :
    extractSentencesWithNLP (fun _ => []) (normalizeText "abc def".toList) = [] ∧
    intelligentTextChunking (fun _ => []) "abc def".toList 5 = some ["abc def".toList] ∧
    5 < "abc def".toList.length := by
  decide

/-- C8 (amended): for every non-empty input on which sentence segmentation
yields zero sentences (and whose normalized text exceeds `maxLength`),
the chunk assembler returns the whole normalized text as one chunk as-is,
even though it exceeds `maxLength`; no word-boundary fallback is applied. -/
theorem chunking_zero_sentences_whole_text (segment : Str → List Str) (text : Str)
    (maxLength : Nat) (hne : text.length ≠ 0)
    (hlong : ¬ (normalizeText text).length ≤ maxLength)
    (hseg : extractSentencesWithNLP segment (normalizeText text) = []) :
    intelligentTextChunking segment text maxLength = some [normalizeText text] := by
  simp only [intelligentTextChunking, if_neg hne, if_neg hlong, hseg]
  simp

/-- Witness for `chunking_zero_sentences_whole_text`. -/
theorem chunking_zero_sentences_whole_text_witness :
    intelligentTextChunking (fun _ => []) "abcdef gh".toList 5 =
      some ["abcdef gh".toList] := by
  have h := chunking_zero_sentences_whole_text (fun _ => []) "abcdef gh".toList 5
    (by decide) (by decide) (by decide)
  rw [h]
  decide

/-! ### Claim C1 — chunk length bound -/

/-- C1 (the code violates the claimed bound): with `maxLength = 5` and a
segmenter producing the sentences `"ab"` and `"cd ef gh"`, the second
sentence (length `8 > 5`, containing word boundaries) is emitted as a
whole chunk: when the running buffer is non-empty, textToSpeech.js line
137 makes the oversized sentence the new buffer instead of word-splitting
it, and it is later pushed whole (line 135 or 152).  This contradicts the
docstring of `intelligentTextChunking` ("Chunks stay under Google TTS API
limit") and the intent of lines 139–141. -/
theorem chunking_emits_oversized_sentence_chunk :
    intelligentTextChunking (fun _ => ["ab".toList, "cd ef gh".toList])
        "ab cd ef gh".toList 5 =
      some ["ab".toList, "cd ef gh".toList] ∧
    5 < "cd ef gh".toList.length ∧ ' ' ∈ "cd ef gh".toList := by
  decide

/-! ### Words: the whitespace-delimited word sequence of a text

Used to state the reconstruction property of the word splitter (claim C5):
"the concatenation of the fragments reproduces the original words". -/

/-- Non-whitespace character. -/
def notWS (c : Char) : Bool := !isWS c

/-- Fueled computation of the maximal non-whitespace runs of a text. -/
def wordsGo : Nat → Str → List Str
  | 0, _ => []
  | _ + 1, [] => []
  | fuel + 1, c :: rest =>
    if isWS c then wordsGo fuel rest
    else (c :: rest.takeWhile notWS) :: wordsGo fuel (rest.dropWhile notWS)

/-- The whitespace-delimited words of a text, in order. -/
def words (l : Str) : List Str := wordsGo l.length l

/-- Join fragments with a single space between consecutive fragments. -/
def joinSpace : List Str → Str
  | [] => []
  | [f] => f
  | f :: g :: fs => f ++ ' ' :: joinSpace (g :: fs)

theorem wordsGo_fuel : ∀ (fuel₁ : Nat) (l : Str) (fuel₂ : Nat),
    l.length ≤ fuel₁ → l.length ≤ fuel₂ → wordsGo fuel₁ l = wordsGo fuel₂ l := by
  intro fuel₁
  induction fuel₁ with
  | zero =>
    intro l fuel₂ h1 h2
    obtain rfl : l = [] := List.length_eq_zero.mp (by omega)
    cases fuel₂ <;> simp [wordsGo]
  | succ m ih =>
    intro l fuel₂ h1 h2
    cases l with
    | nil => cases fuel₂ <;> simp [wordsGo]
    | cons c rest =>
      simp only [List.length_cons] at h1 h2
      cases fuel₂ with
      | zero => omega
      | succ m₂ =>
        simp only [wordsGo]
        split
        · exact ih rest m₂ (by omega) (by omega)
        · have hd : (rest.dropWhile notWS).length ≤ rest.length :=
            length_dropWhile_le notWS rest
          rw [ih (rest.dropWhile notWS) m₂ (by omega) (by omega)]

theorem words_nil : words [] = [] := rfl

theorem words_cons (c : Char) (rest : Str) :
    words (c :: rest) =
      if isWS c then words rest
      else (c :: rest.takeWhile notWS) :: words (rest.dropWhile notWS) := by
  simp only [words, List.length_cons, wordsGo]
  split
  · rfl
  · rw [wordsGo_fuel rest.length (rest.dropWhile notWS) (rest.dropWhile notWS).length
      (length_dropWhile_le notWS rest) le_rfl]

theorem words_eq_nil_of_all_ws (l : Str) (h : ∀ c ∈ l, isWS c) : words l = [] := by
  induction l with
  | nil => rfl
  | cons c rest ih =>
    rw [words_cons, if_pos (h c (by simp))]
    exact ih (fun d hd => h d (by simp [hd]))

/-- Splitting at a whitespace character splits the word list cleanly. -/
theorem words_append_ws_aux : ∀ (n : Nat) (x : Str), x.length ≤ n →
    ∀ (w : Char) (y : Str), isWS w → words (x ++ w :: y) = words x ++ words y := by
  intro n
  induction n with
  | zero =>
    intro x hx w y hw
    obtain rfl : x = [] := List.length_eq_zero.mp (by omega)
    simp [words_cons, hw, words_nil]
  | succ m ih =>
    intro x hx w y hw
    cases x with
    | nil => simp [words_cons, hw, words_nil]
    | cons c x' =>
      simp only [List.length_cons] at hx
      by_cases hc : isWS c
      · rw [List.cons_append, words_cons, if_pos hc, words_cons, if_pos hc,
          ih x' (by omega) w y hw]
      · rw [List.cons_append, words_cons, if_neg hc, words_cons, if_neg hc]
        by_cases hall : ∀ d ∈ x', notWS d
        · have htw : (x' ++ w :: y).takeWhile notWS = x' ++ (w :: y).takeWhile notWS := by
            rw [List.takeWhile_append, List.takeWhile_eq_self_iff.mpr hall]
            simp
          have htw2 : (w :: y).takeWhile notWS = [] := by
            simp [List.takeWhile_cons, notWS, hw]
          have hdw : (x' ++ w :: y).dropWhile notWS = (w :: y).dropWhile notWS := by
            rw [List.dropWhile_append]
            simp [List.dropWhile_eq_nil_iff.mpr hall]
          have hdw2 : (w :: y).dropWhile notWS = w :: y := by
            rw [List.dropWhile_cons_of_neg (by simp [notWS, hw])]
          have hwy : words (w :: y) = words y := by rw [words_cons, if_pos hw]
          have hx'tw : x'.takeWhile notWS = x' := List.takeWhile_eq_self_iff.mpr hall
          have hx'dw : x'.dropWhile notWS = [] := List.dropWhile_eq_nil_iff.mpr hall
          rw [htw, htw2, hdw, hdw2, hwy, hx'tw, hx'dw, words_nil, List.append_nil]
          simp
        · push_neg at hall
          have hne : x'.dropWhile notWS ≠ [] := by
            simp only [ne_eq, List.dropWhile_eq_nil_iff]
            push_neg
            obtain ⟨d, hd, hpd⟩ := hall
            exact ⟨d, hd, hpd⟩
          have htw : (x' ++ w :: y).takeWhile notWS = x'.takeWhile notWS := by
            rw [List.takeWhile_append]
            split
            · rename_i hlen
              exfalso
              have hself := List.takeWhile_eq_self_iff.mp
                (List.Sublist.eq_of_length (List.takeWhile_sublist _) hlen)
              obtain ⟨d, hd, hpd⟩ := hall
              exact hpd (hself d hd)
            · rfl
          have hdw : (x' ++ w :: y).dropWhile notWS = x'.dropWhile notWS ++ w :: y := by
            rw [List.dropWhile_append]
            simp [hne]
          rw [htw, hdw,
            ih (x'.dropWhile notWS) (by have := length_dropWhile_le notWS x'; omega) w y hw]
          simp

theorem words_append_ws (x : Str) (w : Char) (y : Str) (hw : isWS w) :
    words (x ++ w :: y) = words x ++ words y :=
  words_append_ws_aux x.length x le_rfl w y hw

/-- Appending trailing whitespace does not change the word sequence. -/
theorem words_append_all_ws (l s : Str) (h : ∀ c ∈ s, isWS c) :
    words (l ++ s) = words l := by
  cases s with
  | nil => simp
  | cons w s' =>
    rw [words_append_ws l w s' (h w (by simp)),
      words_eq_nil_of_all_ws s' (fun c hc => h c (by simp [hc])), List.append_nil]

theorem words_dropWhile_ws (l : Str) : words (l.dropWhile isWS) = words l := by
  induction l with
  | nil => rfl
  | cons c rest ih =>
    by_cases hc : isWS c
    · rw [List.dropWhile_cons_of_pos hc, ih, words_cons, if_pos hc]
    · rw [List.dropWhile_cons_of_neg hc]

theorem trimRight_eq_nil_all_ws (l : Str) (h : trimRight l = []) : ∀ c ∈ l, isWS c := by
  induction l with
  | nil => simp
  | cons c rest ih =>
    simp only [trimRight] at h
    split at h
    · rename_i hcond
      simp only [Bool.and_eq_true, decide_eq_true_eq] at hcond
      intro d hd
      rcases List.mem_cons.mp hd with rfl | hmem
      · exact hcond.2
      · exact ih hcond.1 d hmem
    · simp at h

/-- Trimming on the right removes a whitespace-only suffix. -/
theorem trimRight_decomp (l : Str) : ∃ s, l = trimRight l ++ s ∧ ∀ c ∈ s, isWS c := by
  induction l with
  | nil => exact ⟨[], by simp [trimRight]⟩
  | cons c rest ih =>
    obtain ⟨s, hs, hws⟩ := ih
    simp only [trimRight]
    split
    · rename_i hcond
      simp only [Bool.and_eq_true, decide_eq_true_eq] at hcond
      refine ⟨c :: rest, by simp, ?_⟩
      intro d hd
      rcases List.mem_cons.mp hd with rfl | hmem
      · exact hcond.2
      · exact trimRight_eq_nil_all_ws rest hcond.1 d hmem
    · exact ⟨s, by rw [List.cons_append]; exact congrArg (c :: ·) hs, hws⟩

theorem words_trimRight (l : Str) : words (trimRight l) = words l := by
  obtain ⟨s, hs, hws⟩ := trimRight_decomp l
  conv_rhs => rw [hs]
  rw [words_append_all_ws _ s hws]

/-- Trimming does not change the word sequence. -/
theorem words_trim (l : Str) : words (trim l) = words l := by
  rw [trim, words_trimRight, words_dropWhile_ws]

theorem words_joinSpace : ∀ fs : List Str, words (joinSpace fs) = (fs.map words).flatten := by
  intro fs
  induction fs with
  | nil => simp [joinSpace, words_nil]
  | cons f gs ih =>
    cases gs with
    | nil => simp [joinSpace]
    | cons g gs' =>
      rw [joinSpace, words_append_ws f ' ' (joinSpace (g :: gs')) (by simp [isWS]), ih]
      simp

/-! ### Claim C5 — the word-boundary splitter -/

theorem lastIndexOfSpace_none (l : Str) :
    ∀ i, lastIndexOfSpace l i = none → ∀ j ≤ i, l.get? j ≠ some ' ' := by
  intro i
  induction i with
  | zero =>
    intro h j hj
    obtain rfl : j = 0 := by omega
    simp only [lastIndexOfSpace] at h
    split at h
    · simp at h
    · assumption
  | succ k ih =>
    intro h j hj
    simp only [lastIndexOfSpace] at h
    split at h
    · simp at h
    · rename_i hk
      rcases Nat.lt_or_ge j (k + 1) with hlt | hge
      · exact ih h j (by omega)
      · obtain rfl : j = k + 1 := by omega
        exact hk

/-- If the first `j` characters of a text are non-whitespace, its
`takeWhile notWS` prefix has length at least `j`. -/
theorem takeWhile_notWS_length_ge : ∀ (l : Str) (j : Nat),
    (∀ i < j, ∃ c, l.get? i = some c ∧ notWS c) → j ≤ (l.takeWhile notWS).length := by
  intro l
  induction l with
  | nil =>
    intro j h
    cases j with
    | zero => simp
    | succ k =>
      obtain ⟨c, hc, _⟩ := h 0 (by omega)
      simp at hc
  | cons a rest ih =>
    intro j h
    cases j with
    | zero => simp
    | succ k =>
      obtain ⟨c, hc, hnws⟩ := h 0 (by omega)
      obtain rfl : a = c := by simpa using hc
      rw [List.takeWhile_cons_of_pos hnws]
      have hk := ih k (fun i hi => by
        obtain ⟨d, hd, hnd⟩ := h (i + 1) (by omega)
        exact ⟨d, by simpa using hd, hnd⟩)
      simp only [List.length_cons]
      omega

/-- If every word of an over-long text fits in `maxLength` and all its
whitespace is plain spaces, a space exists within the length limit. -/
theorem exists_space_within_limit (l : Str) (maxLength : Nat)
    (hlong : maxLength < l.length)
    (hOnly : ∀ c ∈ l, isWS c → c = ' ')
    (hfit : ∀ w ∈ words l, w.length ≤ maxLength) :
    ∃ p, lastIndexOfSpace l maxLength = some p := by
  cases hsp : lastIndexOfSpace l maxLength with
  | some p => exact ⟨p, rfl⟩
  | none =>
    exfalso
    have hnows := lastIndexOfSpace_none l maxLength hsp
    have hchars : ∀ i < maxLength + 1, ∃ c, l.get? i = some c ∧ notWS c := by
      intro i hi
      have hilen : i < l.length := by omega
      have hc : l.get? i = some (l.get ⟨i, hilen⟩) := List.get?_eq_get hilen
      set c := l.get ⟨i, hilen⟩ with hcdef
      refine ⟨c, hc, ?_⟩
      by_contra hws
      have hws' : isWS c := by simpa [notWS] using hws
      have hmem : c ∈ l := List.get?_mem hc
      have hceq : c = ' ' := hOnly c hmem hws'
      exact hnows i (by omega) (hceq ▸ hc)
    cases l with
    | nil => simp at hlong
    | cons a rest =>
      obtain ⟨c, hc, hnws⟩ := hchars 0 (by omega)
      have hca : c = a := by simpa using hc.symm
      rw [hca] at hnws
      have hword : words (a :: rest) = (a :: rest.takeWhile notWS) :: words (rest.dropWhile notWS) := by
        rw [words_cons, if_neg (by simpa [notWS] using hnws)]
      have hhead : (a :: rest.takeWhile notWS) ∈ words (a :: rest) := by
        rw [hword]; simp
      have hlen := hfit _ hhead
      have hge : maxLength ≤ (rest.takeWhile notWS).length := by
        apply takeWhile_notWS_length_ge
        intro i hi
        obtain ⟨d, hd, hnd⟩ := hchars (i + 1) (by omega)
        exact ⟨d, by simpa using hd, hnd⟩
      simp only [List.length_cons] at hlen
      omega

theorem mem_trimRight (l : Str) (c : Char) (h : c ∈ trimRight l) : c ∈ l := by
  obtain ⟨s, hs, _⟩ := trimRight_decomp l
  rw [hs]
  exact List.mem_append_left s h

theorem mem_trim (l : Str) (c : Char) (h : c ∈ trim l) : c ∈ l :=
  (List.dropWhile_sublist isWS).subset (mem_trimRight _ c h)

/-- Word reconstruction: when every word fits within `maxLength` (so no
hard cut is ever needed) and whitespace is plain spaces, the fragments'
word sequences concatenate to the original word sequence. -/
theorem splitLongGo_words (maxLength : Nat) :
    ∀ fuel l frags, splitLongGo maxLength fuel l = some frags →
      (∀ c ∈ l, isWS c → c = ' ') →
      (∀ w ∈ words l, w.length ≤ maxLength) →
      (frags.map words).flatten = words l := by
  intro fuel
  induction fuel with
  | zero => intro l frags h; simp [splitLongGo] at h
  | succ fu ih =>
    intro l frags h hOnly hfit
    simp only [splitLongGo] at h
    split at h
    · rename_i hshort
      split at h
      · obtain rfl : [l] = frags := by simpa using h
        simp
      · rename_i hz
        obtain rfl : ([] : List Str) = frags := by simp_all
        obtain rfl : l = [] := List.length_eq_zero.mp (by omega)
        simp [words_nil]
    · rename_i hlong
      push_neg at hlong
      obtain ⟨p, hsp⟩ := exists_space_within_limit l maxLength hlong hOnly hfit
      have hpos : splitPosOf l maxLength = p := by simp [splitPosOf, hsp]
      obtain ⟨hple, hget⟩ := lastIndexOfSpace_spec l maxLength p hsp
      have hplen : p < l.length := (List.get?_eq_some.mp hget).1
      have hdropc : l.drop p = ' ' :: l.drop (p + 1) := by
        rw [List.drop_eq_getElem_cons hplen]
        obtain ⟨h1, h2⟩ := List.get?_eq_some.mp hget
        simp_all
      have hsplit : l = l.take p ++ ' ' :: l.drop (p + 1) := by
        conv_lhs => rw [← List.take_append_drop p l]
        rw [hdropc]
      have hwl : words l = words (l.take p) ++ words (l.drop (p + 1)) := by
        conv_lhs => rw [hsplit]
        exact words_append_ws _ ' ' _ (by simp [isWS])
      have hwdrop : words (trim (l.drop p)) = words (l.drop (p + 1)) := by
        rw [words_trim, hdropc, words_cons, if_pos (by simp [isWS])]
      rw [hpos] at h
      split at h
      · rename_i rest heq
        obtain rfl : trim (l.take p) :: rest = frags := by simpa using h
        have hrec := ih (trim (l.drop p)) rest heq
          (fun c hc hws => hOnly c (List.drop_subset p l (mem_trim _ c hc)) hws)
          (fun w hw => hfit w (by
            rw [hwdrop] at hw
            rw [hwl]
            exact List.mem_append_right _ hw))
        rw [hwdrop] at hrec
        simp only [List.map_cons, List.flatten_cons, hrec, words_trim, hwl]
      · simp at h

/-- C5 (counterexample to the claim as stated): the word-reconstruction
part fails when a hard cut occurs.  `"aaaaaaa"` with `maxLength = 3`
contains no space, so the splitter hard-cuts inside the single word: the
space-joined fragments have words `["aaa","aaa","a"]`, not `["aaaaaaa"]`.
Moreover with `maxLength = 0` the JS loop does not even terminate
(modelled by fuel exhaustion: the remaining text never shrinks). -/
theorem splitLong_hard_cut_counterexample :
    splitLongTextAtWordBoundaries "aaaaaaa".toList 3 =
      some ["aaa".toList, "aaa".toList, "a".toList] ∧
    words (joinSpace ["aaa".toList, "aaa".toList, "a".toList]) ≠ words "aaaaaaa".toList ∧
    splitLongTextAtWordBoundaries "ab".toList 0 = none := by
  decide

/-- C5 (amended): for `maxLength ≥ 1` and any text longer than
`maxLength`, the splitter terminates and every fragment has length
≤ `maxLength`; moreover, whenever the text's whitespace consists of plain
spaces and every word fits in `maxLength` (so no hard non-word cut is
needed), the space-joined concatenation of the fragments reproduces the
original words in their original order. -/
theorem splitLong_spec (text : Str) (maxLength : Nat) (hm : 1 ≤ maxLength)
    (_hlong : maxLength < text.length) :
    ∃ frags, splitLongTextAtWordBoundaries text maxLength = some frags ∧
      (∀ f ∈ frags, f.length ≤ maxLength) ∧
      ((∀ c ∈ text, isWS c → c = ' ') → (∀ w ∈ words text, w.length ≤ maxLength) →
        words (joinSpace frags) = words text) := by
  have hsome := splitLongTextAtWordBoundaries_isSome text maxLength hm
  cases heq : splitLongTextAtWordBoundaries text maxLength with
  | none => rw [heq] at hsome; simp at hsome
  | some frags =>
    refine ⟨frags, rfl, ?_, ?_⟩
    · exact splitLongGo_length_le maxLength _ text frags heq
    · intro hOnly hfit
      rw [words_joinSpace]
      exact splitLongGo_words maxLength _ text frags heq hOnly hfit

/-- Witness for `splitLong_spec` at `"hello world foo bar"`, limit 7. -/
theorem splitLong_spec_witness :
    ∃ frags, splitLongTextAtWordBoundaries "hello world foo bar".toList 7 = some frags ∧
      (∀ f ∈ frags, f.length ≤ 7) ∧
      words (joinSpace frags) = words "hello world foo bar".toList := by
  obtain ⟨frags, h1, h2, h3⟩ := splitLong_spec "hello world foo bar".toList 7
    (by decide) (by decide)
  exact ⟨frags, h1, h2, h3 (by decide) (by decide)⟩

/-! ### The synthesis client and the rate-limited batch scheduler

`synthesizeChunk` (textToSpeech.js lines 201–223) performs one network
call and classifies provider errors into rate-limit (`RateLimitError`,
`isRateLimit = true`) vs. other failures.  The network is external, so a
call's outcome is modelled by an oracle indexed by chunk index and
attempt number; the message strings already carry the prefixes attached
at lines 219/221. -/

/-- Outcome of one `synthesizeChunk` call. -/
inductive SynthOutcome where
  | success (bytes : ByteBuf)
  | rateLimited (msg : String)
  | failure (msg : String)
deriving DecidableEq

/-- An oracle giving the outcome of the synthesis call for a given chunk
index at a given attempt number. -/
abbrev SynthOracle := Nat → Nat → SynthOutcome

instance : DecidableEq (Except String ByteBuf) := fun x y =>
  match x, y with
  | .ok a, .ok b =>
    if h : a = b then .isTrue (by rw [h]) else .isFalse (by simp [h])
  | .ok _, .error _ => .isFalse (by simp)
  | .error _, .ok _ => .isFalse (by simp)
  | .error a, .error b =>
    if h : a = b then .isTrue (by rw [h]) else .isFalse (by simp [h])

/-- Execution record of one chunk's retry loop. -/
structure ChunkRun where
  result : Except String ByteBuf
  retryDelays : List Nat
  calls : Nat
deriving DecidableEq

/-- The retry loop of `processChunksWithRateLimit` for one chunk
(textToSpeech.js lines 296–314): `for (attempt = 0; attempt <= maxRetries;
attempt++)` — try the call; on a rate-limit error with `attempt <
maxRetries`, sleep `initialRetryDelay * 2^attempt` and retry; on any
other error, or once retries are exhausted, stop and fail with the last
error's message.  Structurally recursive on the remaining attempt budget
`fuel`, with `attempt = maxRetries - fuel`; the entry point uses
`fuel = maxRetries`, so `attempt < maxRetries ↔ fuel > 0` exactly as in
the JS loop.  `retryDelays` records the back-off sleeps, `calls` the
number of synthesis calls made. -/
def attemptGo (o : Nat → SynthOutcome) (initialRetryDelay maxRetries : Nat) :
    Nat → ChunkRun
  | 0 =>
    match o maxRetries with
    | .success b => ⟨.ok b, [], 1⟩
    | .failure m => ⟨.error m, [], 1⟩
    | .rateLimited m => ⟨.error m, [], 1⟩
  | fuel + 1 =>
    let attempt := maxRetries - (fuel + 1)
    match o attempt with
    | .success b => ⟨.ok b, [], 1⟩
    | .failure m => ⟨.error m, [], 1⟩
    | .rateLimited _ =>
      let rest := attemptGo o initialRetryDelay maxRetries fuel
      ⟨rest.result, initialRetryDelay * 2 ^ attempt :: rest.retryDelays, rest.calls + 1⟩

/-- Full retry loop for one chunk, attempts `0 .. maxRetries`. -/
def runChunkAttempts (o : Nat → SynthOutcome) (initialRetryDelay maxRetries : Nat) :
    ChunkRun :=
  attemptGo o initialRetryDelay maxRetries maxRetries

/-- Batch options of `processChunksWithRateLimit` (textToSpeech.js lines
252–257; defaults of the destructuring). -/
structure BatchOptions where
  maxConcurrent : Nat := 10
  maxRequestsPerMinute : Nat := 120
  initialRetryDelay : Nat := 1000
  maxRetries : Nat := 3
deriving DecidableEq

/-- Batch size: `Math.min(maxConcurrent, maxRequestsPerMinute)`
(textToSpeech.js line 260). -/
def batchSize (opts : BatchOptions) : Nat :=
  min opts.maxConcurrent opts.maxRequestsPerMinute

/-- Stagger delay `Math.max(100, (60000 / maxRequestsPerMinute) * 1.1)`
(textToSpeech.js line 262), in exact rational arithmetic:
`(60000/m) * 1.1 = 66000/m`.  (The IEEE-754 rounding of the JS
computation never moves the value across the 100 ms floor for any
integer `m`, so the exact form is faithful.) -/
def requestDelayMs (maxRequestsPerMinute : Nat) : ℚ :=
  max 100 (66000 / (maxRequestsPerMinute : ℚ))

/-- The batch partition loop (textToSpeech.js line 279:
`for (batchStart = 0; batchStart < chunks.length; batchStart += batchSize)`
with `batch = chunks.slice(batchStart, batchStart + batchSize)`), with
fuel; for `batchSize = 0` the JS loop never advances, matching fuel
exhaustion (the degenerate case is excluded by hypothesis in the
theorems). -/
def batchesGo (bs : Nat) : Nat → List α → List (List α)
  | 0, _ => []
  | _ + 1, [] => []
  | fuel + 1, l => l.take bs :: batchesGo bs fuel (l.drop bs)

/-- The list of consecutive batches of size `bs` (last one possibly
shorter). -/
def batches (bs : Nat) (l : List α) : List (List α) := batchesGo bs l.length l

/-- One scheduled synthesis task: original chunk index, position inside
its batch, the stagger delay applied before its first synthesis call
(textToSpeech.js lines 289–293: `delay = i * requestDelayMs`), and the
retry-loop record. -/
structure TaskRecord where
  chunkIndex : Nat
  posInBatch : Nat
  preDelay : ℚ
  run : ChunkRun
deriving DecidableEq

/-- The tasks launched for one batch (textToSpeech.js lines 284–326):
one task per chunk of the batch, task `i` staggered by
`i * requestDelayMs`. -/
def runBatch (oracle : SynthOracle) (opts : BatchOptions) (startIdx : Nat)
    (batch : List Str) : List TaskRecord :=
  (List.range batch.length).map (fun i =>
    { chunkIndex := startIdx + i
      posInBatch := i
      preDelay := i * requestDelayMs opts.maxRequestsPerMinute
      run := runChunkAttempts (oracle (startIdx + i)) opts.initialRetryDelay opts.maxRetries })

/-- All tasks of all batches, in launch order. -/
def tasksOfBatches (oracle : SynthOracle) (opts : BatchOptions) :
    Nat → List (List Str) → List TaskRecord
  | _, [] => []
  | start, b :: bs => runBatch oracle opts start b ++ tasksOfBatches oracle opts (start + b.length) bs

/-- Every synthesis task of a batch run over `chunks`, in launch order. -/
def allTasks (oracle : SynthOracle) (opts : BatchOptions) (chunks : List Str) :
    List TaskRecord :=
  tasksOfBatches oracle opts 0 (batches (batchSize opts) chunks)

/-- Apply index-keyed writes to the result vector
(`results[result.index] = result.data`, textToSpeech.js line 334). -/
def applyWrites (v : List (Option ByteBuf)) (ws : List (Nat × ByteBuf)) :
    List (Option ByteBuf) :=
  ws.foldl (fun acc w => acc.set w.1 (some w.2)) v

/-- The writes performed by successful tasks, keyed by chunk index. -/
def successWrites (tasks : List TaskRecord) : List (Nat × ByteBuf) :=
  tasks.filterMap (fun t =>
    match t.run.result with
    | .ok b => some (t.chunkIndex, b)
    | .error _ => none)

/-- The per-chunk failures, in task order, with their error messages
(`failedChunks`, textToSpeech.js lines 337–341). -/
def failedChunksOf (tasks : List TaskRecord) : List (Nat × String) :=
  tasks.filterMap (fun t =>
    match t.run.result with
    | .ok _ => none
    | .error e => some (t.chunkIndex, e))

/-- The result vector after all tasks have written their slots; slots of
failed chunks were never written (`new Array(chunks.length)`,
textToSpeech.js line 264). -/
def resultsAfterTasks (oracle : SynthOracle) (opts : BatchOptions)
    (chunks : List Str) : List (Option ByteBuf) :=
  applyWrites (List.replicate chunks.length none) (successWrites (allTasks oracle opts chunks))

/-- The fill loop (textToSpeech.js lines 395–399): every still-unwritten
slot (`!results[i]`) is written once with an empty buffer. -/
def fillWrites (v : List (Option ByteBuf)) : List (Nat × ByteBuf) :=
  (List.range v.length).filterMap (fun i =>
    match v[i]? with
    | some none => some (i, ([] : ByteBuf))
    | _ => none)

/-- The aggregated error thrown when too many chunks failed
(textToSpeech.js line 390): at most the first 3 per-chunk messages are
included, with an ellipsis if there were more. -/
def aggErrorMessage (failed : List (Nat × String)) (total : Nat) : String :=
  "Failed to process " ++ toString failed.length ++ "/" ++ toString total ++
    " chunks. Errors: " ++ String.intercalate ", " ((failed.take 3).map Prod.snd) ++
    (if 3 < failed.length then "..." else "")

/-- Function `processChunksWithRateLimit` (textToSpeech.js lines 251–402), final
outcome: run all tasks; if the failed count exceeds 10 % of the chunk
count (`failedChunks.length > chunks.length * 0.1`, exact in the
rationals: `10 * failed > total`; the IEEE-754 evaluation of
`chunks.length * 0.1` decides identically for all integer counts), throw
the aggregated error; otherwise fill the unwritten slots with empty
buffers and return the result vector. -/
def processChunksWithRateLimit (oracle : SynthOracle) (opts : BatchOptions)
    (chunks : List Str) : Except String (List ByteBuf) :=
  let tasks := allTasks oracle opts chunks
  let failed := failedChunksOf tasks
  if 10 * failed.length > chunks.length then
    .error (aggErrorMessage failed chunks.length)
  else
    let afterTasks := resultsAfterTasks oracle opts chunks
    .ok ((applyWrites afterTasks (fillWrites afterTasks)).map (fun o => o.getD []))

/-! ### Claim C3 — retry policy -/

/-- Closed form of the retry loop when every attempt is rate-limited:
with `fuel ≤ maxRetries` remaining attempts after the current one, the
loop makes `fuel + 1` further calls, sleeping
`initialRetryDelay * 2^attempt` before each retry. -/
theorem attemptGo_rateLimited (o : Nat → SynthOutcome) (init maxRetries : Nat)
    (m : String) (h : ∀ a, o a = .rateLimited m) :
    ∀ fuel, fuel ≤ maxRetries →
      attemptGo o init maxRetries fuel =
        ⟨.error m, (List.range fuel).map (fun j => init * 2 ^ (maxRetries - fuel + j)),
          fuel + 1⟩ := by
  intro fuel
  induction fuel with
  | zero =>
    intro _
    simp [attemptGo, h maxRetries]
  | succ f ih =>
    intro hle
    have hrest := ih (by omega)
    simp only [attemptGo, h (maxRetries - (f + 1)), hrest]
    refine congrArg (fun d => ChunkRun.mk (.error m) d (f + 1 + 1)) ?_
    rw [List.range_succ_eq_map]
    simp only [List.map_cons, List.map_map, Nat.add_zero]
    refine congrArg (fun t => init * 2 ^ (maxRetries - (f + 1)) :: t) ?_
    apply List.map_congr_left
    intro j _
    simp only [Function.comp_apply]
    have hexp : maxRetries - (f + 1) + Nat.succ j = maxRetries - f + j := by omega
    rw [hexp]

/-- C3 (confirmed): a chunk whose synthesis always fails with a
rate-limit error is retried exactly `maxRetries` times (so
`maxRetries + 1` synthesis calls in total), with a back-off delay of
`initialRetryDelay * 2^attempt` slept before retry number `attempt`
(counted from 0), after which the job fails; a chunk whose first
synthesis call fails with a non-rate-limit error fails immediately after
that single call, with no retry and no back-off sleep
(textToSpeech.js lines 296–314). -/
theorem retry_policy (o : Nat → SynthOutcome) (init maxRetries : Nat) (m : String) :
    ((∀ a, o a = .rateLimited m) →
      runChunkAttempts o init maxRetries =
        ⟨.error m, (List.range maxRetries).map (fun attempt => init * 2 ^ attempt),
          maxRetries + 1⟩) ∧
    (o 0 = .failure m →
      runChunkAttempts o init maxRetries = ⟨.error m, [], 1⟩) := by
  constructor
  · intro h
    rw [runChunkAttempts, attemptGo_rateLimited o init maxRetries m h maxRetries le_rfl]
    simp
  · intro h
    cases maxRetries with
    | zero => simp [runChunkAttempts, attemptGo, h]
    | succ k =>
      have h0 : k + 1 - (k + 1) = 0 := by omega
      simp [runChunkAttempts, attemptGo, h0, h]

/-- Witness for `retry_policy`: 3 retries with delays 1000, 2000, 4000 ms
then failure; and immediate failure without retry. -/
theorem retry_policy_witness :
    runChunkAttempts (fun _ => .rateLimited "quota") 1000 3 =
      ⟨.error "quota", [1000, 2000, 4000], 4⟩ ∧
    runChunkAttempts (fun _ => .failure "boom") 1000 3 = ⟨.error "boom", [], 1⟩ := by
  constructor
  · rw [(retry_policy (fun _ => .rateLimited "quota") 1000 3 "quota").1 (fun _ => rfl)]
    decide
  · exact (retry_policy (fun _ => .failure "boom") 1000 3 "boom").2 rfl

/-! ### Closed form of the scheduled task list -/

theorem batchesGo_nil (bs : Nat) : ∀ fuel, batchesGo bs fuel ([] : List Str) = [] := by
  intro fuel
  cases fuel <;> rfl

/-- With a positive batch size, the task list is: one task per chunk, in
index order, at batch position `j % batchSize`, staggered by
`(j % batchSize) * requestDelayMs`, running the full retry loop. -/
theorem tasksOfBatches_closed (oracle : SynthOracle) (opts : BatchOptions) (bs : Nat)
    (hbs : 1 ≤ bs) :
    ∀ (fuel : Nat) (l : List Str) (start : Nat), l.length ≤ fuel → bs ∣ start →
      tasksOfBatches oracle opts start (batchesGo bs fuel l) =
        (List.range l.length).map (fun j =>
          { chunkIndex := start + j
            posInBatch := (start + j) % bs
            preDelay := (((start + j) % bs : Nat) : ℚ) * requestDelayMs opts.maxRequestsPerMinute
            run := runChunkAttempts (oracle (start + j)) opts.initialRetryDelay
              opts.maxRetries }) := by
  intro fuel
  induction fuel with
  | zero =>
    intro l start hlen _
    obtain rfl : l = [] := List.length_eq_zero.mp (by omega)
    simp [batchesGo, tasksOfBatches]
  | succ fu ih =>
    intro l start hlen hdvd
    cases l with
    | nil => simp [batchesGo, tasksOfBatches]
    | cons c rest =>
      obtain ⟨q, rfl⟩ := hdvd
      have hbgo : batchesGo bs (fu + 1) (c :: rest) =
          (c :: rest).take bs :: batchesGo bs fu ((c :: rest).drop bs) := rfl
      rw [hbgo, tasksOfBatches]
      rcases le_or_lt (c :: rest).length bs with hle | hlt
      · rw [List.take_of_length_le hle, List.drop_eq_nil_of_le hle, batchesGo_nil,
          tasksOfBatches, List.append_nil, runBatch]
        apply List.map_congr_left
        intro j hj
        have hjlt : j < (c :: rest).length := List.mem_range.mp hj
        have hmod : (bs * q + j) % bs = j := by
          rw [Nat.mul_add_mod]
          exact Nat.mod_eq_of_lt (by omega)
        simp [hmod]
      · have htklen : ((c :: rest).take bs).length = bs := by
          rw [List.length_take]
          omega
        have hdplen : ((c :: rest).drop bs).length = (c :: rest).length - bs :=
          List.length_drop bs (c :: rest)
        have hrec := ih ((c :: rest).drop bs) (bs * q + bs)
          (by rw [hdplen]; simp only [List.length_cons] at hlen ⊢; omega)
          ⟨q + 1, by ring⟩
        rw [htklen, hrec, runBatch, htklen]
        have hsplitn : (c :: rest).length = bs + ((c :: rest).length - bs) := by omega
        rw [hsplitn, List.range_add, List.map_append, List.map_map, hdplen]
        refine congrArg₂ (· ++ ·) ?_ ?_
        · apply List.map_congr_left
          intro j hj
          have hjlt : j < bs := List.mem_range.mp hj
          have hmod : (bs * q + j) % bs = j := by
            rw [Nat.mul_add_mod]
            exact Nat.mod_eq_of_lt hjlt
          simp [hmod]
        · apply List.map_congr_left
          intro j _
          simp only [Function.comp_apply]
          have harith : bs * q + bs + j = bs * q + (bs + j) := by omega
          rw [harith]

/-- Closed form of `allTasks` for a positive batch size. -/
theorem allTasks_closed (oracle : SynthOracle) (opts : BatchOptions) (chunks : List Str)
    (hbs : 1 ≤ batchSize opts) :
    allTasks oracle opts chunks =
      (List.range chunks.length).map (fun j =>
        { chunkIndex := j
          posInBatch := j % batchSize opts
          preDelay := ((j % batchSize opts : Nat) : ℚ) * requestDelayMs opts.maxRequestsPerMinute
          run := runChunkAttempts (oracle j) opts.initialRetryDelay opts.maxRetries }) := by
  rw [allTasks, batches,
    tasksOfBatches_closed oracle opts (batchSize opts) hbs chunks.length chunks 0 le_rfl
      (Dvd.intro 0 rfl)]
  apply List.map_congr_left
  intro j _
  simp

/-! ### Properties of index-keyed writes -/

theorem applyWrites_length (ws : List (Nat × ByteBuf)) :
    ∀ v : List (Option ByteBuf), (applyWrites v ws).length = v.length := by
  induction ws with
  | nil => intro v; rfl
  | cons w ws' ih =>
    intro v
    rw [applyWrites, List.foldl_cons]
    have := ih (v.set w.1 (some w.2))
    rw [applyWrites] at this
    rw [this, List.length_set]

theorem applyWrites_getElem_of_not_mem (ws : List (Nat × ByteBuf)) :
    ∀ (v : List (Option ByteBuf)) (i : Nat), (∀ b, (i, b) ∉ ws) →
      (applyWrites v ws)[i]? = v[i]? := by
  induction ws with
  | nil => intro v i _; rfl
  | cons w ws' ih =>
    intro v i h
    have hne : w.1 ≠ i := by
      intro he
      exact h w.2 (by rw [← he]; exact List.mem_cons_self _ _)
    rw [applyWrites, List.foldl_cons]
    have hrec := ih (v.set w.1 (some w.2)) i (fun b hb => h b (List.mem_cons_of_mem _ hb))
    rw [applyWrites] at hrec
    rw [hrec, List.getElem?_set_ne hne]

theorem applyWrites_getElem_of_mem (ws : List (Nat × ByteBuf)) :
    ∀ (v : List (Option ByteBuf)) (i : Nat) (b : ByteBuf), (i, b) ∈ ws →
      (ws.map Prod.fst).Nodup → i < v.length →
      (applyWrites v ws)[i]? = some (some b) := by
  induction ws with
  | nil => intro v i b hmem; simp at hmem
  | cons w ws' ih =>
    intro v i b hmem hnodup hlen
    rw [List.map_cons, List.nodup_cons] at hnodup
    rw [applyWrites, List.foldl_cons]
    rcases List.mem_cons.mp hmem with heq | htail
    · obtain rfl : w = (i, b) := heq.symm
      have hnot : ∀ b', (i, b') ∉ ws' := by
        intro b' hb'
        exact hnodup.1 (List.mem_map.mpr ⟨(i, b'), hb', rfl⟩)
      have hrec := applyWrites_getElem_of_not_mem ws' (v.set i (some b)) i hnot
      rw [applyWrites] at hrec
      rw [hrec, List.getElem?_set_eq_of_lt (some b) hlen]
    · have hne : w.1 ≠ i := by
        intro he
        exact hnodup.1 (List.mem_map.mpr ⟨(i, b), htail, he.symm⟩)
      have hrec := ih (v.set w.1 (some w.2)) i b htail hnodup.2
        (by rw [List.length_set]; exact hlen)
      rw [applyWrites] at hrec
      exact hrec

/-- Writes with pairwise-distinct keys commute: the final vector does not
depend on the order in which the tasks complete and write their slots. -/
theorem applyWrites_perm (ws₁ ws₂ : List (Nat × ByteBuf)) (hperm : ws₁.Perm ws₂)
    (hnodup : (ws₁.map Prod.fst).Nodup) :
    ∀ v : List (Option ByteBuf), applyWrites v ws₁ = applyWrites v ws₂ := by
  induction hperm with
  | nil => intro v; rfl
  | cons x p ih =>
    intro v
    rw [List.map_cons, List.nodup_cons] at hnodup
    rw [applyWrites, List.foldl_cons, applyWrites, List.foldl_cons]
    have := ih hnodup.2 (v.set x.1 (some x.2))
    rw [applyWrites, applyWrites] at this
    exact this
  | swap x y l =>
    intro v
    have hne : y.1 ≠ x.1 := by
      rw [List.map_cons, List.map_cons, List.nodup_cons] at hnodup
      exact fun he => hnodup.1 (by rw [he]; exact List.mem_cons_self _ _)
    rw [applyWrites, List.foldl_cons, List.foldl_cons, applyWrites, List.foldl_cons,
      List.foldl_cons, List.set_comm _ _ _ hne]
  | trans p q ihp ihq =>
    intro v
    rename_i l₁ l₂ l₃
    rw [ihp hnodup v, ihq ((p.map Prod.fst).nodup hnodup) v]

/-! ### The batch run's write sets and result vector -/

/-- The terminal outcome of chunk `i`'s retry loop in a batch run. -/
def chunkResult (oracle : SynthOracle) (opts : BatchOptions) (i : Nat) :
    Except String ByteBuf :=
  (runChunkAttempts (oracle i) opts.initialRetryDelay opts.maxRetries).result

theorem successWrites_allTasks (oracle : SynthOracle) (opts : BatchOptions)
    (chunks : List Str) (hbs : 1 ≤ batchSize opts) :
    successWrites (allTasks oracle opts chunks) =
      (List.range chunks.length).filterMap (fun j =>
        match chunkResult oracle opts j with
        | .ok b => some (j, b)
        | .error _ => none) := by
  rw [successWrites, allTasks_closed oracle opts chunks hbs, List.filterMap_map]
  rfl

theorem failedChunksOf_allTasks (oracle : SynthOracle) (opts : BatchOptions)
    (chunks : List Str) (hbs : 1 ≤ batchSize opts) :
    failedChunksOf (allTasks oracle opts chunks) =
      (List.range chunks.length).filterMap (fun j =>
        match chunkResult oracle opts j with
        | .ok _ => none
        | .error e => some (j, e)) := by
  rw [failedChunksOf, allTasks_closed oracle opts chunks hbs, List.filterMap_map]
  rfl

/-- Keys produced by an index-keyed `filterMap` form a sub-sequence of
the index list.  (β is the payload type of the write.) -/
theorem map_fst_filterMap_sublist {β : Type} (f : Nat → Option (Nat × β))
    (hf : ∀ j p, f j = some p → p.1 = j) :
    ∀ l : List Nat, List.Sublist ((l.filterMap f).map Prod.fst) l := by
  intro l
  induction l with
  | nil => simp
  | cons j l' ih =>
    cases hj : f j with
    | none => rw [List.filterMap_cons_none hj]; exact ih.cons j
    | some p =>
      rw [List.filterMap_cons_some hj, List.map_cons, hf j p hj]
      exact ih.cons₂ j

theorem successWrites_keys_nodup (oracle : SynthOracle) (opts : BatchOptions)
    (chunks : List Str) (hbs : 1 ≤ batchSize opts) :
    ((successWrites (allTasks oracle opts chunks)).map Prod.fst).Nodup := by
  rw [successWrites_allTasks oracle opts chunks hbs]
  refine (List.nodup_range chunks.length).sublist (map_fst_filterMap_sublist _ ?_ _)
  intro j p hp
  cases hres : chunkResult oracle opts j with
  | ok b => rw [hres] at hp; exact congrArg Prod.fst (by simpa using hp.symm)
  | error e => rw [hres] at hp; simp at hp

theorem resultsAfterTasks_getElem (oracle : SynthOracle) (opts : BatchOptions)
    (chunks : List Str) (hbs : 1 ≤ batchSize opts) (i : Nat) (hi : i < chunks.length) :
    (resultsAfterTasks oracle opts chunks)[i]? =
      match chunkResult oracle opts i with
      | .ok b => some (some b)
      | .error _ => some none := by
  cases hres : chunkResult oracle opts i with
  | ok b =>
    refine applyWrites_getElem_of_mem _ _ i b ?_ (successWrites_keys_nodup oracle opts chunks hbs)
      (by simp [hi])
    rw [successWrites_allTasks oracle opts chunks hbs]
    exact List.mem_filterMap.mpr ⟨i, List.mem_range.mpr hi, by rw [hres]⟩
  | error e =>
    have hnot : ∀ b, (i, b) ∉ successWrites (allTasks oracle opts chunks) := by
      intro b hb
      rw [successWrites_allTasks oracle opts chunks hbs] at hb
      obtain ⟨j, _, hj⟩ := List.mem_filterMap.mp hb
      cases hres' : chunkResult oracle opts j with
      | ok b' =>
        rw [hres'] at hj
        obtain ⟨rfl, rfl⟩ : j = i ∧ b' = b := by simpa using hj
        rw [hres] at hres'
        exact Except.noConfusion hres'
      | error e' => rw [hres'] at hj; simp at hj
    rw [resultsAfterTasks, applyWrites_getElem_of_not_mem _ _ i hnot,
      List.getElem?_replicate, if_pos hi]

theorem resultsAfterTasks_length (oracle : SynthOracle) (opts : BatchOptions)
    (chunks : List Str) :
    (resultsAfterTasks oracle opts chunks).length = chunks.length := by
  rw [resultsAfterTasks, applyWrites_length, List.length_replicate]

theorem fillWrites_resultsAfterTasks (oracle : SynthOracle) (opts : BatchOptions)
    (chunks : List Str) (hbs : 1 ≤ batchSize opts) :
    fillWrites (resultsAfterTasks oracle opts chunks) =
      (List.range chunks.length).filterMap (fun i =>
        match chunkResult oracle opts i with
        | .ok _ => none
        | .error _ => some (i, ([] : ByteBuf))) := by
  rw [fillWrites, resultsAfterTasks_length]
  apply List.filterMap_congr
  intro i hi
  rw [resultsAfterTasks_getElem oracle opts chunks hbs i (List.mem_range.mp hi)]
  cases chunkResult oracle opts i <;> rfl

theorem fillWrites_keys_nodup (oracle : SynthOracle) (opts : BatchOptions)
    (chunks : List Str) (hbs : 1 ≤ batchSize opts) :
    ((fillWrites (resultsAfterTasks oracle opts chunks)).map Prod.fst).Nodup := by
  rw [fillWrites_resultsAfterTasks oracle opts chunks hbs]
  refine (List.nodup_range chunks.length).sublist (map_fst_filterMap_sublist _ ?_ _)
  intro j p hp
  cases hres : chunkResult oracle opts j with
  | ok b => rw [hres] at hp; simp at hp
  | error e => rw [hres] at hp; exact congrArg Prod.fst (by simpa using hp.symm)

/-- Content of the returned result vector below the failure threshold. -/
theorem processChunks_ok (oracle : SynthOracle) (opts : BatchOptions) (chunks : List Str)
    (hbs : 1 ≤ batchSize opts)
    (hok : ¬ 10 * (failedChunksOf (allTasks oracle opts chunks)).length > chunks.length) :
    ∃ v, processChunksWithRateLimit oracle opts chunks = .ok v ∧
      v.length = chunks.length ∧
      ∀ i, i < chunks.length →
        v[i]? = some (match chunkResult oracle opts i with
          | .ok b => b
          | .error _ => []) := by
  refine ⟨_, by rw [processChunksWithRateLimit, if_neg hok], ?_, ?_⟩
  · rw [List.length_map, applyWrites_length, resultsAfterTasks_length]
  · intro i hi
    rw [List.getElem?_map]
    cases hres : chunkResult oracle opts i with
    | ok b =>
      have hnot : ∀ b', (i, b') ∉ fillWrites (resultsAfterTasks oracle opts chunks) := by
        intro b' hb'
        rw [fillWrites_resultsAfterTasks oracle opts chunks hbs] at hb'
        obtain ⟨j, _, hj⟩ := List.mem_filterMap.mp hb'
        cases hres' : chunkResult oracle opts j with
        | ok b'' => rw [hres'] at hj; simp at hj
        | error e' =>
          rw [hres'] at hj
          obtain ⟨rfl, _⟩ : j = i ∧ ([] : ByteBuf) = b' := by simpa using hj
          rw [hres] at hres'
          exact Except.noConfusion hres'
      rw [applyWrites_getElem_of_not_mem _ _ i hnot,
        resultsAfterTasks_getElem oracle opts chunks hbs i hi, hres]
      rfl
    | error e =>
      have hmem : (i, ([] : ByteBuf)) ∈ fillWrites (resultsAfterTasks oracle opts chunks) := by
        rw [fillWrites_resultsAfterTasks oracle opts chunks hbs]
        exact List.mem_filterMap.mpr ⟨i, List.mem_range.mpr hi, by rw [hres]⟩
      rw [applyWrites_getElem_of_mem _ _ i [] hmem
        (fillWrites_keys_nodup oracle opts chunks hbs)
        (by rw [resultsAfterTasks_length]; exact hi)]
      rfl

theorem mem_successWrites_keys (oracle : SynthOracle) (opts : BatchOptions)
    (chunks : List Str) (hbs : 1 ≤ batchSize opts) (i : Nat) :
    i ∈ (successWrites (allTasks oracle opts chunks)).map Prod.fst ↔
      i < chunks.length ∧ ∃ b, chunkResult oracle opts i = .ok b := by
  rw [successWrites_allTasks oracle opts chunks hbs]
  constructor
  · intro h
    obtain ⟨⟨j, b⟩, hmem, hfst⟩ := List.mem_map.mp h
    obtain ⟨k, hk, hkeq⟩ := List.mem_filterMap.mp hmem
    cases hres : chunkResult oracle opts k with
    | ok b' =>
      rw [hres] at hkeq
      have hkj : k = j ∧ b' = b := by simpa using hkeq
      have hki : k = i := hkj.1.trans hfst
      rw [hki] at hres hk
      exact ⟨List.mem_range.mp hk, b', hres⟩
    | error e => rw [hres] at hkeq; simp at hkeq
  · rintro ⟨hi, b, hres⟩
    exact List.mem_map.mpr ⟨(i, b),
      List.mem_filterMap.mpr ⟨i, List.mem_range.mpr hi, by rw [hres]⟩, rfl⟩

theorem mem_fillWrites_keys (oracle : SynthOracle) (opts : BatchOptions)
    (chunks : List Str) (hbs : 1 ≤ batchSize opts) (i : Nat) :
    i ∈ (fillWrites (resultsAfterTasks oracle opts chunks)).map Prod.fst ↔
      i < chunks.length ∧ ∃ e, chunkResult oracle opts i = .error e := by
  rw [fillWrites_resultsAfterTasks oracle opts chunks hbs]
  constructor
  · intro h
    obtain ⟨⟨j, b⟩, hmem, hfst⟩ := List.mem_map.mp h
    obtain ⟨k, hk, hkeq⟩ := List.mem_filterMap.mp hmem
    cases hres : chunkResult oracle opts k with
    | ok b' => rw [hres] at hkeq; simp at hkeq
    | error e =>
      rw [hres] at hkeq
      have hkj : k = j ∧ ([] : ByteBuf) = b := by simpa using hkeq
      have hki : k = i := hkj.1.trans hfst
      rw [hki] at hres hk
      exact ⟨List.mem_range.mp hk, e, hres⟩
  · rintro ⟨hi, e, hres⟩
    exact List.mem_map.mpr ⟨(i, ([] : ByteBuf)),
      List.mem_filterMap.mpr ⟨i, List.mem_range.mpr hi, by rw [hres]⟩, rfl⟩

/-! ### Claim C2 — failure-ratio ceiling -/

/-- C2 (confirmed): after all chunks are processed, if the failed count
exceeds 10 % of the chunk count the run throws a single aggregated error
whose sample contains at most 3 per-chunk messages (textToSpeech.js lines
389–391); otherwise the run returns the result vector, of full length,
with an empty byte marker at every failed index and the synthesized bytes
at every successful index (lines 394–401). -/
theorem batch_failure_threshold (oracle : SynthOracle) (opts : BatchOptions)
    (chunks : List Str) (hbs : 1 ≤ batchSize opts) :
    (10 * (failedChunksOf (allTasks oracle opts chunks)).length > chunks.length →
      processChunksWithRateLimit oracle opts chunks =
        .error (aggErrorMessage (failedChunksOf (allTasks oracle opts chunks)) chunks.length) ∧
      (((failedChunksOf (allTasks oracle opts chunks)).take 3).map Prod.snd).length ≤ 3) ∧
    (¬ 10 * (failedChunksOf (allTasks oracle opts chunks)).length > chunks.length →
      ∃ v, processChunksWithRateLimit oracle opts chunks = .ok v ∧
        v.length = chunks.length ∧
        (∀ i e, (i, e) ∈ failedChunksOf (allTasks oracle opts chunks) →
          v[i]? = some ([] : ByteBuf)) ∧
        (∀ i b, i < chunks.length → chunkResult oracle opts i = .ok b →
          v[i]? = some b)) := by
  constructor
  · intro hgt
    refine ⟨by rw [processChunksWithRateLimit, if_pos hgt], ?_⟩
    calc (((failedChunksOf (allTasks oracle opts chunks)).take 3).map Prod.snd).length
        = ((failedChunksOf (allTasks oracle opts chunks)).take 3).length := List.length_map _ _
      _ ≤ 3 := List.length_take_le 3 _
  · intro hle
    obtain ⟨v, hv, hlen, hslot⟩ := processChunks_ok oracle opts chunks hbs hle
    refine ⟨v, hv, hlen, ?_, ?_⟩
    · intro i e hmem
      rw [failedChunksOf_allTasks oracle opts chunks hbs] at hmem
      obtain ⟨j, hj, hjeq⟩ := List.mem_filterMap.mp hmem
      cases hres : chunkResult oracle opts j with
      | ok b => rw [hres] at hjeq; simp at hjeq
      | error e' =>
        rw [hres] at hjeq
        have hji : j = i ∧ e' = e := by simpa using hjeq
        rw [hji.1] at hres hj
        rw [hslot i (List.mem_range.mp hj), hres]
    · intro i b hi hres
      rw [hslot i hi, hres]

/-- Witness for `batch_failure_threshold`: 2 of 3 chunks failing
(67 % > 10 %) aggregates into an error; 1 of 20 failing (5 % ≤ 10 %)
succeeds with an empty marker at the failed index. -/
theorem batch_failure_threshold_witness :
    (processChunksWithRateLimit (fun i _ => if i = 0 then .success [7] else .failure "boom")
        ⟨10, 120, 1000, 3⟩ (List.replicate 3 ['x']) =
      .error (aggErrorMessage (failedChunksOf (allTasks
        (fun i _ => if i = 0 then .success [7] else .failure "boom")
        ⟨10, 120, 1000, 3⟩ (List.replicate 3 ['x']))) 3)) ∧
    (∃ v, processChunksWithRateLimit (fun i _ => if i = 1 then .failure "boom" else .success [5])
        ⟨10, 120, 1000, 3⟩ (List.replicate 20 ['x']) = .ok v ∧
      v.length = 20 ∧ v[1]? = some ([] : ByteBuf)) := by
  constructor
  · exact ((batch_failure_threshold (fun i _ => if i = 0 then .success [7] else .failure "boom")
      ⟨10, 120, 1000, 3⟩ (List.replicate 3 ['x']) (by decide)).1 (by decide)).1
  · obtain ⟨v, hv, hlen, hfail, _⟩ :=
      (batch_failure_threshold (fun i _ => if i = 1 then .failure "boom" else .success [5])
        ⟨10, 120, 1000, 3⟩ (List.replicate 20 ['x']) (by decide)).2 (by decide)
    exact ⟨v, hv, by simpa using hlen, hfail 1 "boom" (by decide)⟩

/-! ### Claim C4 — result-vector slot discipline -/

/-- C4 (confirmed): in every batch run, (1) each slot index below the
chunk count is written exactly once across the task writes and the
empty-marker fill writes; (2) the returned vector has length exactly the
chunk count and slot `i` holds chunk `i`'s synthesis result (or the empty
marker); (3) the vector after the task writes is invariant under any
reordering (completion order) of those writes, since each task writes its
own chunk-indexed slot. -/
theorem batch_result_slots (oracle : SynthOracle) (opts : BatchOptions)
    (chunks : List Str) (hbs : 1 ≤ batchSize opts) :
    (∀ i, i < chunks.length →
      ((successWrites (allTasks oracle opts chunks) ++
        fillWrites (resultsAfterTasks oracle opts chunks)).map Prod.fst).count i = 1) ∧
    (∀ v, processChunksWithRateLimit oracle opts chunks = .ok v →
      v.length = chunks.length ∧
      ∀ i, i < chunks.length →
        v[i]? = some (match chunkResult oracle opts i with
          | .ok b => b
          | .error _ => [])) ∧
    (∀ ws, ws.Perm (successWrites (allTasks oracle opts chunks)) →
      applyWrites (List.replicate chunks.length none) ws =
        resultsAfterTasks oracle opts chunks) := by
  refine ⟨?_, ?_, ?_⟩
  · intro i hi
    rw [List.map_append, List.count_append]
    cases hres : chunkResult oracle opts i with
    | ok b =>
      have h1 : ((successWrites (allTasks oracle opts chunks)).map Prod.fst).count i = 1 :=
        List.count_eq_one_of_mem (successWrites_keys_nodup oracle opts chunks hbs)
          ((mem_successWrites_keys oracle opts chunks hbs i).mpr ⟨hi, b, hres⟩)
      have h0 : ((fillWrites (resultsAfterTasks oracle opts chunks)).map Prod.fst).count i = 0 := by
        refine List.count_eq_zero_of_not_mem ?_
        intro hmem
        obtain ⟨_, e, hres'⟩ := (mem_fillWrites_keys oracle opts chunks hbs i).mp hmem
        rw [hres] at hres'
        exact Except.noConfusion hres'
      omega
    | error e =>
      have h0 : ((successWrites (allTasks oracle opts chunks)).map Prod.fst).count i = 0 := by
        refine List.count_eq_zero_of_not_mem ?_
        intro hmem
        obtain ⟨_, b, hres'⟩ := (mem_successWrites_keys oracle opts chunks hbs i).mp hmem
        rw [hres] at hres'
        exact Except.noConfusion hres'
      have h1 : ((fillWrites (resultsAfterTasks oracle opts chunks)).map Prod.fst).count i = 1 :=
        List.count_eq_one_of_mem (fillWrites_keys_nodup oracle opts chunks hbs)
          ((mem_fillWrites_keys oracle opts chunks hbs i).mpr ⟨hi, e, hres⟩)
      omega
  · intro v hv
    rw [processChunksWithRateLimit] at hv
    split at hv
    · exact Except.noConfusion hv
    · rename_i hle
      obtain ⟨v', hv', hlen, hslot⟩ := processChunks_ok oracle opts chunks hbs hle
      rw [processChunksWithRateLimit, if_neg hle] at hv'
      rw [hv] at hv'
      obtain rfl : v = v' := by simpa using hv'
      exact ⟨hlen, hslot⟩
  · intro ws hperm
    rw [resultsAfterTasks]
    exact applyWrites_perm ws (successWrites (allTasks oracle opts chunks)) hperm
      (((hperm.map Prod.fst).symm).nodup (successWrites_keys_nodup oracle opts chunks hbs))
      (List.replicate chunks.length none)

/-- Witness for `batch_result_slots`: a 3-chunk run with one failure —
slot 1 is written exactly once, and replaying the successful writes in
reverse (a different completion order) yields the same vector. -/
theorem batch_result_slots_witness :
    (((successWrites (allTasks (fun i _ => if i = 1 then .failure "boom" else .success [5])
        ⟨10, 120, 1000, 3⟩ (List.replicate 3 ['x'])) ++
      fillWrites (resultsAfterTasks (fun i _ => if i = 1 then .failure "boom" else .success [5])
        ⟨10, 120, 1000, 3⟩ (List.replicate 3 ['x']))).map Prod.fst).count 1 = 1) ∧
    applyWrites (List.replicate 3 none)
        (successWrites (allTasks (fun i _ => if i = 1 then .failure "boom" else .success [5])
          ⟨10, 120, 1000, 3⟩ (List.replicate 3 ['x']))).reverse =
      resultsAfterTasks (fun i _ => if i = 1 then .failure "boom" else .success [5])
        ⟨10, 120, 1000, 3⟩ (List.replicate 3 ['x']) := by
  have h := batch_result_slots (fun i _ => if i = 1 then .failure "boom" else .success [5])
    ⟨10, 120, 1000, 3⟩ (List.replicate 3 ['x']) (by decide)
  exact ⟨by simpa using h.1 1 (by decide), h.2.2 _ (List.reverse_perm _)⟩

/-! ### Claim C9 — batch partition and stagger schedule -/

theorem batchesGo_fuel (bs : Nat) (hbs : 1 ≤ bs) :
    ∀ (fuel₁ : Nat) (l : List Str) (fuel₂ : Nat), l.length ≤ fuel₁ → l.length ≤ fuel₂ →
      batchesGo bs fuel₁ l = batchesGo bs fuel₂ l := by
  intro fuel₁
  induction fuel₁ with
  | zero =>
    intro l fuel₂ h1 _
    obtain rfl : l = [] := List.length_eq_zero.mp (by omega)
    rw [batchesGo_nil, batchesGo_nil]
  | succ m ih =>
    intro l fuel₂ h1 h2
    cases l with
    | nil => rw [batchesGo_nil, batchesGo_nil]
    | cons c rest =>
      cases fuel₂ with
      | zero => simp at h2
      | succ m₂ =>
        show (c :: rest).take bs :: batchesGo bs m ((c :: rest).drop bs) =
          (c :: rest).take bs :: batchesGo bs m₂ ((c :: rest).drop bs)
        have hdl : ((c :: rest).drop bs).length ≤ rest.length := by
          rw [List.length_drop]
          simp only [List.length_cons]
          omega
        simp only [List.length_cons] at h1 h2
        rw [ih ((c :: rest).drop bs) m₂ (le_trans hdl (by omega)) (le_trans hdl (by omega))]

theorem batchesGo_flatten (bs : Nat) (hbs : 1 ≤ bs) :
    ∀ (fuel : Nat) (l : List Str), l.length ≤ fuel → (batchesGo bs fuel l).flatten = l := by
  intro fuel
  induction fuel with
  | zero =>
    intro l h
    obtain rfl : l = [] := List.length_eq_zero.mp (by omega)
    rfl
  | succ m ih =>
    intro l h
    cases l with
    | nil => rfl
    | cons c rest =>
      show ((c :: rest).take bs :: batchesGo bs m ((c :: rest).drop bs)).flatten = c :: rest
      rw [List.flatten_cons, ih ((c :: rest).drop bs)
        (by rw [List.length_drop]; simp only [List.length_cons] at h ⊢; omega),
        List.take_append_drop]

theorem batches_unfold (bs : Nat) (hbs : 1 ≤ bs) (l : List Str) (hne : l ≠ []) :
    batches bs l = l.take bs :: batches bs (l.drop bs) := by
  cases l with
  | nil => exact absurd rfl hne
  | cons c rest =>
    show (c :: rest).take bs :: batchesGo bs (c :: rest).length.pred ((c :: rest).drop bs) =
      (c :: rest).take bs :: batches bs ((c :: rest).drop bs)
    rw [batches, batchesGo_fuel bs hbs _ _ _
      (by rw [List.length_drop]; simp; omega) le_rfl]

theorem batches_length_le (bs : Nat) (_hbs : 1 ≤ bs) :
    ∀ (fuel : Nat) (l : List Str), ∀ b ∈ batchesGo bs fuel l, b.length ≤ bs := by
  intro fuel
  induction fuel with
  | zero => intro l b hb; simp [batchesGo] at hb
  | succ m ih =>
    intro l b hb
    cases l with
    | nil => simp [batchesGo_nil] at hb
    | cons c rest =>
      rcases List.mem_cons.mp hb with rfl | hmem
      · rw [List.length_take]
        omega
      · exact ih ((c :: rest).drop bs) b hmem

/-- C9 (amended: the per-slot offset includes the 100 ms floor): the
chunks are partitioned into consecutive batches of size
`min(maxConcurrent, maxRequestsPerMinute)`, and the task at batch
position `i` is delayed before its synthesis call by the fixed offset
`i * max(100, (60000 / maxRequestsPerMinute) * 1.1)` — the code floors
the inter-request delay at 100 ms (`Math.max(100, ...)`,
textToSpeech.js line 262), which the claim's formula omits. -/
theorem batch_stagger_schedule (oracle : SynthOracle) (opts : BatchOptions)
    (chunks : List Str) (hbs : 1 ≤ batchSize opts) :
    ((batches (batchSize opts) chunks).flatten = chunks ∧
      (∀ b ∈ batches (batchSize opts) chunks, b.length ≤ batchSize opts) ∧
      (∀ l : List Str, l ≠ [] →
        batches (batchSize opts) l =
          l.take (batchSize opts) :: batches (batchSize opts) (l.drop (batchSize opts)))) ∧
    (allTasks oracle opts chunks).map (fun t => (t.chunkIndex, t.posInBatch, t.preDelay)) =
      (List.range chunks.length).map (fun j =>
        (j, j % batchSize opts,
          ((j % batchSize opts : Nat) : ℚ) *
            max 100 (66000 / (opts.maxRequestsPerMinute : ℚ)))) := by
  refine ⟨⟨batchesGo_flatten (batchSize opts) hbs chunks.length chunks le_rfl,
    fun b hb => batches_length_le (batchSize opts) hbs chunks.length chunks b hb,
    fun l hne => batches_unfold (batchSize opts) hbs l hne⟩, ?_⟩
  rw [allTasks_closed oracle opts chunks hbs, List.map_map]
  apply List.map_congr_left
  intro j _
  rfl

/-- C9 (counterexample to the claim as stated): with
`maxRequestsPerMinute = 1000`, the task at batch position 1 is delayed by
100 ms (the floor), not by `(60000/1000) * 1.1 = 66` ms as the claimed
formula would have it. -/
theorem batch_stagger_floor_counterexample :
    (allTasks (fun _ _ => .success []) ⟨10, 1000, 1000, 3⟩ [['a'], ['b']]).map
        TaskRecord.preDelay = [0, 100] ∧
    (100 : ℚ) ≠ (60000 / (1000 : ℚ)) * (11 / 10) := by
  constructor
  · have hd : requestDelayMs 1000 = 100 := by
      rw [requestDelayMs,
        show (66000 : ℚ) / ((1000 : Nat) : ℚ) = 66 by norm_num,
        max_eq_left (by norm_num)]
    rw [allTasks_closed _ _ _ (by decide), List.map_map]
    show [((0 % batchSize ⟨10, 1000, 1000, 3⟩ : Nat) : ℚ) * requestDelayMs 1000,
      ((1 % batchSize ⟨10, 1000, 1000, 3⟩ : Nat) : ℚ) * requestDelayMs 1000] = [0, 100]
    rw [hd]
    norm_num
    rfl
  · intro h
    have : (60000 / (1000 : ℚ)) * (11 / 10) = 66 := by norm_num
    rw [this] at h
    norm_num at h

/-- Witness for `batch_stagger_schedule`: 25 chunks, batch size
`min(10, 100) = 10` — the partition concatenates back to the chunks and
slot delays follow `(j % 10) * max(100, 66000/100)`. -/
theorem batch_stagger_schedule_witness :
    (batches (batchSize ⟨10, 100, 1000, 3⟩) (List.replicate 25 ['x'])).flatten =
      List.replicate 25 ['x'] ∧
    (allTasks (fun _ _ => .success []) ⟨10, 100, 1000, 3⟩ (List.replicate 25 ['x'])).map
        (fun t => (t.chunkIndex, t.posInBatch, t.preDelay)) =
      (List.range 25).map (fun j =>
        (j, j % batchSize ⟨10, 100, 1000, 3⟩,
          ((j % batchSize ⟨10, 100, 1000, 3⟩ : Nat) : ℚ) *
            max 100 (66000 / ((⟨10, 100, 1000, 3⟩ : BatchOptions).maxRequestsPerMinute : ℚ)))) := by
  have h := batch_stagger_schedule (fun _ _ => .success []) ⟨10, 100, 1000, 3⟩
    (List.replicate 25 ['x']) (by decide)
  exact ⟨by simpa using h.1.1, by simpa using h.2⟩

/-! ### The HTTP handler (textToSpeech.js lines 404–509)

The handler is modelled from the point where the input text has been
extracted from the request body (JSON `text` field or raw body — the
parsing itself is external I/O).  The response is a status code plus the
JSON body as an ordered key/value list. -/

/-- A JSON value of the response body. -/
inductive JVal where
  | str (s : String)
  | num (n : Nat)
  | bool (b : Bool)
  | bytes (b : ByteBuf)
deriving DecidableEq

/-- An HTTP response: status code and JSON body fields in order. -/
structure HttpResponse where
  status : Nat
  body : List (String × JVal)
deriving DecidableEq

/-- Is a synthesis outcome a success? -/
def isSuccess : SynthOutcome → Bool
  | .success _ => true
  | _ => false

/-- The sequential small-text path (textToSpeech.js lines 440–451): one
synthesis call per chunk in order, no retry; the first failure throws and
aborts the loop. -/
def seqSynthesize (oracle : SynthOracle) : Nat → List Str → Except String (List ByteBuf)
  | _, [] => .ok []
  | i, _ :: rest =>
    match oracle i 0 with
    | .success b =>
      match seqSynthesize oracle (i + 1) rest with
      | .ok tail => .ok (b :: tail)
      | .error e => .error e
    | .rateLimited m => .error m
    | .failure m => .error m

/-- The batch options the handler passes to the scheduler
(textToSpeech.js lines 465–470). -/
def handlerBatchOptions : BatchOptions := ⟨10, 100, 1000, 3⟩

/-- The HTTP handler (textToSpeech.js lines 407–508): reject
empty/whitespace-only input with 400; chunk the text with the default
4900 limit; for ≤ 10 chunks synthesize sequentially, otherwise via the
rate-limited batch scheduler; on success return 200 with the concatenated
audio (empty buffers filtered out, line 481) and the body of line
489–494; any thrown error yields 500.  The status-598 branch is
unreachable (`intelligentTextChunking` is total for limit 4900,
`intelligentTextChunking_isSome`). -/
def handler (segment : Str → List Str) (oracle : SynthOracle) (inputText : Str) :
    HttpResponse :=
  if (trim inputText).length = 0 then
    ⟨400, [("error", .str "No text provided")]⟩
  else
    match intelligentTextChunking segment inputText 4900 with
    | none => ⟨598, []⟩
    | some chunks =>
      let audioResult :=
        if chunks.length ≤ 10 then seqSynthesize oracle 0 chunks
        else processChunksWithRateLimit oracle handlerBatchOptions chunks
      match audioResult with
      | .ok audioChunks =>
        ⟨200, [("success", .bool true),
               ("audioData", .bytes ((audioChunks.filter (fun c => 0 < c.length)).flatten)),
               ("format", .str "ogg"),
               ("chunksProcessed", .num chunks.length)]⟩
      | .error m =>
        ⟨500, [("error", .str "Internal server error"), ("message", .str m)]⟩

/-! ### Claim C6 — the sequential small-text path -/

theorem seqSynthesize_error_of_fail (oracle : SynthOracle) :
    ∀ (l : List Str) (i : Nat), (∃ j, j < l.length ∧ ¬ isSuccess (oracle (i + j) 0)) →
      ∃ e, seqSynthesize oracle i l = .error e := by
  intro l
  induction l with
  | nil =>
    rintro i ⟨j, hj, _⟩
    simp at hj
  | cons c rest ih =>
    rintro i ⟨j, hj, hfail⟩
    cases ho : oracle i 0 with
    | success b =>
      cases j with
      | zero =>
        rw [Nat.add_zero, ho] at hfail
        simp [isSuccess] at hfail
      | succ j' =>
        obtain ⟨e, he⟩ := ih (i + 1)
          ⟨j', by simpa using Nat.lt_of_succ_lt_succ hj, by
            have harith : i + 1 + j' = i + (j' + 1) := by omega
            rw [harith]
            exact hfail⟩
        refine ⟨e, ?_⟩
        simp only [seqSynthesize, ho, he]
    | rateLimited m => exact ⟨m, by simp only [seqSynthesize, ho]⟩
    | failure m => exact ⟨m, by simp only [seqSynthesize, ho]⟩

theorem seqSynthesize_ok_of_success (oracle : SynthOracle) :
    ∀ (l : List Str) (i : Nat), (∀ j, j < l.length → isSuccess (oracle (i + j) 0)) →
      ∃ out, seqSynthesize oracle i l = .ok out := by
  intro l
  induction l with
  | nil => intro i _; exact ⟨[], rfl⟩
  | cons c rest ih =>
    intro i h
    have h0 := h 0 (by simp)
    cases ho : oracle i 0 with
    | success b =>
      obtain ⟨out, hout⟩ := ih (i + 1) (fun j hj => by
        have harith : i + 1 + j = i + (j + 1) := by omega
        rw [harith]
        exact h (j + 1) (by simpa using Nat.succ_lt_succ hj))
      exact ⟨b :: out, by simp only [seqSynthesize, ho, hout]⟩
    | rateLimited m => rw [Nat.add_zero, ho] at h0; simp [isSuccess] at h0
    | failure m => rw [Nat.add_zero, ho] at h0; simp [isSuccess] at h0

theorem seqSynthesize_congr (oracle oracle' : SynthOracle)
    (h : ∀ k, oracle' k 0 = oracle k 0) :
    ∀ (l : List Str) (i : Nat), seqSynthesize oracle' i l = seqSynthesize oracle i l := by
  intro l
  induction l with
  | nil => intro i; rfl
  | cons c rest ih =>
    intro i
    simp only [seqSynthesize, h i, ih (i + 1)]

/-- C6 (confirmed): when chunking yields at most 10 chunks the handler
synthesizes them sequentially: (1) any single failing chunk — including a
rate-limited one — makes the whole request return status 500, regardless
of the 10 % failure tolerance of the batch scheduler; (2) if every
chunk's single call succeeds the request returns 200; (3) the response
depends only on the attempt-0 outcomes — no retry attempt is ever
consulted (textToSpeech.js lines 440–451, 497–507). -/
theorem handler_small_no_tolerance (segment : Str → List Str) (oracle : SynthOracle)
    (inputText : Str) (chunks : List Str)
    (hne : (trim inputText).length ≠ 0)
    (hchunks : intelligentTextChunking segment inputText 4900 = some chunks)
    (hsmall : chunks.length ≤ 10) :
    ((∃ j, j < chunks.length ∧ ¬ isSuccess (oracle j 0)) →
      (handler segment oracle inputText).status = 500) ∧
    ((∀ j, j < chunks.length → isSuccess (oracle j 0)) →
      (handler segment oracle inputText).status = 200) ∧
    (∀ oracle' : SynthOracle, (∀ k, oracle' k 0 = oracle k 0) →
      handler segment oracle' inputText = handler segment oracle inputText) := by
  refine ⟨?_, ?_, ?_⟩
  · rintro ⟨j, hj, hfail⟩
    obtain ⟨e, he⟩ := seqSynthesize_error_of_fail oracle chunks 0
      ⟨j, hj, by simpa using hfail⟩
    rw [handler, if_neg hne, hchunks]
    simp only [if_pos hsmall, he]
  · intro h
    obtain ⟨out, hout⟩ := seqSynthesize_ok_of_success oracle chunks 0
      (fun j hj => by simpa using h j hj)
    rw [handler, if_neg hne, hchunks]
    simp only [if_pos hsmall, hout]
  · intro oracle' h
    rw [handler, handler, if_neg hne, if_neg hne, hchunks]
    simp only [if_pos hsmall, seqSynthesize_congr oracle oracle' h chunks 0]

/-- Witness for `handler_small_no_tolerance`: one chunk whose single
synthesis call is rate-limited — the whole request fails with 500 even
though 1 failure of 1 chunk would be within no ceiling at all. -/
theorem handler_small_no_tolerance_witness :
    (handler (fun _ => []) (fun _ _ => .rateLimited "Rate limit exceeded: quota")
      "hello".toList).status = 500 := by
  exact (handler_small_no_tolerance (fun _ => [])
    (fun _ _ => .rateLimited "Rate limit exceeded: quota") "hello".toList
    ["hello".toList] (by decide) (by decide) (by decide)).1
    ⟨0, by decide, by decide⟩

/-! ### Claim C7 — success-response metadata -/

/-- C7 (counterexample to the claim as stated): a successful run's
response body carries `chunksProcessed` but NO failure count — there is
no `failedCount` field in the returned JSON (textToSpeech.js lines
489–494); failure counts appear only in progress-callback payloads. -/
theorem response_no_failed_count :
    (handler (fun _ => []) (fun _ _ => .success [1, 2]) "hi".toList).status = 200 ∧
    ((handler (fun _ => []) (fun _ _ => .success [1, 2]) "hi".toList).body.lookup
      "chunksProcessed") = some (.num 1) ∧
    ((handler (fun _ => []) (fun _ _ => .success [1, 2]) "hi".toList).body.lookup
      "failedCount") = none := by
  decide

/-- C7 (amended: the output metadata holds only `chunksProcessed`): every
successful (status-200) response consists of exactly the fields
`success`, `audioData` (the ordered concatenated audio bytes), `format`
and `chunksProcessed` (the chunk count); no failure count is included in
the output. -/
theorem success_response_shape (segment : Str → List Str) (oracle : SynthOracle)
    (inputText : Str)
    (h200 : (handler segment oracle inputText).status = 200) :
    ∃ chunks audio,
      intelligentTextChunking segment inputText 4900 = some chunks ∧
      (handler segment oracle inputText).body =
        [("success", .bool true), ("audioData", .bytes audio), ("format", .str "ogg"),
         ("chunksProcessed", .num chunks.length)] ∧
      (handler segment oracle inputText).body.map Prod.fst =
        ["success", "audioData", "format", "chunksProcessed"] := by
  by_cases hne : (trim inputText).length = 0
  · rw [handler, if_pos hne] at h200
    simp at h200
  · cases hch : intelligentTextChunking segment inputText 4900 with
    | none =>
      rw [handler, if_neg hne, hch] at h200
      simp at h200
    | some chunks =>
      cases har : (if chunks.length ≤ 10 then seqSynthesize oracle 0 chunks
          else processChunksWithRateLimit oracle handlerBatchOptions chunks) with
      | ok audioChunks =>
        have hh : handler segment oracle inputText =
            ⟨200, [("success", .bool true),
                   ("audioData", .bytes ((audioChunks.filter (fun c => 0 < c.length)).flatten)),
                   ("format", .str "ogg"),
                   ("chunksProcessed", .num chunks.length)]⟩ := by
          rw [handler, if_neg hne, hch]
          simp only [har]
        exact ⟨chunks, (audioChunks.filter (fun c => 0 < c.length)).flatten, rfl,
          by rw [hh], by rw [hh]; rfl⟩
      | error m =>
        rw [handler, if_neg hne, hch] at h200
        simp only [har] at h200
        simp at h200

/-- Witness for `success_response_shape` at a concrete successful run. -/
theorem success_response_shape_witness :
    ∃ chunks audio,
      intelligentTextChunking (fun _ => []) "hi".toList 4900 = some chunks ∧
      (handler (fun _ => []) (fun _ _ => .success [9]) "hi".toList).body =
        [("success", .bool true), ("audioData", .bytes audio), ("format", .str "ogg"),
         ("chunksProcessed", .num chunks.length)] ∧
      (handler (fun _ => []) (fun _ _ => .success [9]) "hi".toList).body.map Prod.fst =
        ["success", "audioData", "format", "chunksProcessed"] :=
  success_response_shape (fun _ => []) (fun _ _ => .success [9]) "hi".toList (by decide)

end TTS
